import Mathlib

/-
Shallow embedding of the doogle TF-IDF search engine (src/model.rs, with the
sequential query loop of src/main.rs).

Representation choices:
* `PathBuf` and terms are `String`; `SystemTime` is an abstract `Nat` stamp.
* `HashMap<PathBuf, Document>` (field `tfi`) and a document's
  `HashMap<String, usize>` (field `tf`) are association lists
  `List (key × value)`; hash maps have no observable iteration order, so all
  theorems about them go through order-insensitive statements.
* The global document-frequency map `HashMap<String, usize>` (field `idf`) is
  embedded as the lookup function `String → Option Nat` (`none` = key absent),
  the observable quotient of the hash map: `remove_doc` decrements counters but
  never deletes keys, so `none` versus `some 0` matters and is kept.
* `f32` scores are real numbers; `usize` counters are `Nat` (the one place a
  `usize` operation can wrap, the `*count -= 1` of `remove_doc`, is the subject
  of a dedicated underflow theorem below).
* Code that can panic is `Option`-valued: `dispatch_tasks` divides
  `tasks / threads_count`, which panics when the computed `threads_count`
  is zero, embedded as a `none` result.
-/

namespace Doogle

/-- Rust `Model::clean_term`: uppercase canonicalisation of a token
(`to_uppercase` maps every character to upper case, written here over the
character list of the string). -/
def clean_term (term : String) : String := ⟨term.data.map Char.toUpper⟩

/-- Association-list lookup, the embedding of `HashMap::get`. -/
def lookupA {β : Type} (l : List (String × β)) (k : String) : Option β :=
  match l with
  | [] => none
  | (k1, v) :: rest => if k1 = k then some v else lookupA rest k

/-- Rust struct `Document`: token count, modification stamp, term-frequency
table (association list standing for `HashMap<String, usize>`). -/
structure Document where
  terms_count : Nat
  last_modified : Nat
  tf : List (String × Nat)
deriving DecidableEq

/-- Rust struct `Model`: tracked directories, document index, global
document-frequency map (`idf` field in the source), document count. -/
structure Model where
  dirs : List String
  tfi : List (String × Document)
  idf : String → Option Nat
  num_docs : Nat

/-- Rust `Model::new`. -/
def Model.new : Model :=
  { dirs := [], tfi := [], idf := fun _ => none, num_docs := 0 }

/-- One step of the `add_doc` loop `// Add to idf`: bump the counter of one
term, inserting 1 when the key is absent (both arms give `old.getD 0 + 1`). -/
def bumpIdf (f : String → Option Nat) (t : String) : String → Option Nat :=
  fun s => if s = t then some ((f t).getD 0 + 1) else f s

/-- One step of the `remove_doc` loop: `if let Some(count) = idf.get_mut(term)
\x7b *count -= 1 \x7d`; an absent key is untouched.  `Nat` subtraction stands for
the `usize` decrement; the underflow theorem below shows the counter is at
least 1 whenever this runs on a well-formed model, so no wrap occurs. -/
def decrIdf (f : String → Option Nat) (t : String) : String → Option Nat :=
  fun s => if s = t then (f t).map (fun c => c - 1) else f s

/-- Rust `Model::remove_doc`: drop the entry, decrement `num_docs`, and
decrement the document-frequency counter of every distinct term of the
removed document.  No-op when the path is not indexed. -/
def Model.remove_doc (m : Model) (doc_path : String) : Model :=
  match lookupA m.tfi doc_path with
  | some doc =>
    { m with
      tfi := m.tfi.filter (fun pd => pd.1 ≠ doc_path)
      num_docs := m.num_docs - 1
      idf := (doc.tf.map Prod.fst).foldl decrIdf m.idf }
  | none => m

/-- Rust `Model::add_doc`.  The tokenizer (`Lexer`) is the external
collaborator of the spec, so the function consumes the token sequence
`content` directly.  The token loop of the source builds exactly the table
mapping each distinct cleaned token to its occurrence count, with
`terms_count` the number of tokens; the `// Add to idf` loop then bumps the
counter of each distinct term, and the document is inserted. -/
def Model.add_doc (m : Model) (doc_path : String) (content : List String)
    (last_modified : Nat) : Model :=
  let m1 := m.remove_doc doc_path
  let terms := content.map clean_term
  let tf := terms.dedup.map (fun t => (t, terms.count t))
  { dirs := m1.dirs
    tfi := (doc_path, ⟨terms.length, last_modified, tf⟩) :: m1.tfi
    idf := terms.dedup.foldl bumpIdf m1.idf
    num_docs := m1.num_docs + 1 }

/-- The document record built by `add_doc` from a token sequence: the term
table maps each distinct cleaned token to its occurrence count, and
`terms_count` is the number of tokens. -/
def builtDoc (content : List String) (last_modified : Nat) : Document :=
  ⟨(content.map clean_term).length, last_modified,
    (content.map clean_term).dedup.map
      (fun t => (t, (content.map clean_term).count t))⟩

/-- Rust `Model::get_idf`: `log10(num_docs / count)` when the stored counter
is positive, 0 otherwise (`f32::log10` becomes `Real.logb 10`). -/
noncomputable def Model.get_idf (m : Model) (term : String) : ℝ :=
  match m.idf term with
  | some v => if 0 < v then Real.logb 10 ((m.num_docs : ℝ) / (v : ℝ)) else 0
  | none => 0

/-- Rust `Model::get_tf_doc`: `count / terms_count` guarded by
`terms_count > 0`; 0 for a missing document, a missing term, or an empty
document. -/
noncomputable def Model.get_tf_doc (m : Model) (doc_path : String)
    (term : String) : ℝ :=
  match lookupA m.tfi doc_path with
  | some doc =>
    if 0 < doc.terms_count then
      match lookupA doc.tf term with
      | some v => (v : ℝ) / (doc.terms_count : ℝ)
      | none => 0
    else 0
  | none => 0

/-- A `QueryResult` (`HashMap<PathBuf, f32>`) as its observable quotient: the
score function with absent documents scoring 0. -/
abbrev QueryResult := String → ℝ

/-- Rust `Model::process_query_term`: the whole-corpus contribution of one
raw query term.  The `idf == 0` arm is the empty map; otherwise each document
scores `tf * idf`, with the `tf == 0` skip keeping absent documents at 0. -/
noncomputable def Model.process_query_term (m : Model) (raw : String) :
    QueryResult :=
  let term := clean_term raw
  let idf_value := m.get_idf term
  if idf_value = 0 then fun _ => 0
  else fun path =>
    let tf_value := m.get_tf_doc path term
    if tf_value = 0 then 0 else tf_value * idf_value

/-- Rust `combine_results`: additive merge of two sparse score maps, which on
the function quotient is pointwise addition. -/
noncomputable def combine_results (results result : QueryResult) : QueryResult :=
  fun doc => results doc + result doc

/-- Worker for `splitWhitespace`: walk the characters, accumulating the
current (reversed) non-whitespace run, emitting a token at each whitespace
boundary; no empty token is ever emitted. -/
def splitWsAux : List Char → List Char → List String
  | [], acc => if acc.isEmpty then [] else [⟨acc.reverse⟩]
  | c :: cs, acc =>
    if c.isWhitespace then
      if acc.isEmpty then splitWsAux cs []
      else (⟨acc.reverse⟩ : String) :: splitWsAux cs []
    else splitWsAux cs (c :: acc)

/-- Rust `str::split_whitespace`: the maximal non-whitespace runs of the
string, in order (whitespace is a separator, empty pieces are dropped). -/
def splitWhitespace (s : String) : List String :=
  splitWsAux s.data []

/-- Rust `dispatch_tasks`.  The clamped worker count is
`threads_count.max(1).min(tasks)`, which is 0 when `tasks = 0`; the source
then computes `tasks / threads_count`, an integer division by zero, i.e. a
panic — embedded as `none`.  Otherwise the push loop produces exactly the
start/charge pair written in the source for each `i < threads_count`. -/
def dispatch_tasks (threads_count tasks : Nat) : Option (List (Nat × Nat)) :=
  let threads_count := min (max threads_count 1) tasks
  if threads_count = 0 then none
  else
    let threads_min_charge := tasks / threads_count
    let overcharged_threads := tasks % threads_count
    some ((List.range threads_count).map (fun i =>
      (min i overcharged_threads * (threads_min_charge + 1) +
          (if overcharged_threads < i then i - overcharged_threads else 0) *
            threads_min_charge,
       if i < overcharged_threads then threads_min_charge + 1
       else threads_min_charge)))

/-- Closed form of the chunk start offset pushed by `dispatch_tasks` for
worker `i` (`base` = minimum charge, `r` = overcharged workers). -/
def chunkStart (base r i : Nat) : Nat :=
  min i r * (base + 1) + (if r < i then i - r else 0) * base

/-- Closed form of the chunk charge pushed by `dispatch_tasks` for worker
`i`. -/
def chunkCharge (base r i : Nat) : Nat :=
  if i < r then base + 1 else base

/-- Rust `process_query` of src/model.rs, at the level of the split term
list.  Each dispatched chunk is the slice `request[start..start+charge]`; a
worker folds `combine_results` of `process_query_term` over its chunk; the
join loop pops the worker results (reverse order) and merges them.  Workers
are pure, so the spawned closure is evaluated in place. -/
noncomputable def process_query_terms (m : Model) (request : List String)
    (threads_count : Nat) : Option QueryResult :=
  match dispatch_tasks threads_count request.length with
  | none => none
  | some dispatched =>
    some (((dispatched.map (fun sc =>
        ((request.drop sc.1).take sc.2).foldl
          (fun results term => combine_results results (m.process_query_term term))
          (fun _ => 0))).reverse).foldl combine_results (fun _ => 0))

/-- Rust `process_query` of src/model.rs: split the request on whitespace,
then dispatch. -/
noncomputable def process_query (m : Model) (request : String)
    (threads_count : Nat) : Option QueryResult :=
  process_query_terms m (splitWhitespace request) threads_count

/-- The sequential single-pass evaluation (`Model::process_query` of
src/main.rs): one pass over the term list, accumulating each term's
whole-corpus contribution into the running result map.  The source inlines
the per-document loop of `process_query_term`; pointwise on the score
function the two are identical (the `idf == 0` `continue` merges the empty
map). -/
noncomputable def process_query_seq_terms (m : Model) (request : List String) :
    QueryResult :=
  request.foldl
    (fun results term => combine_results results (m.process_query_term term))
    (fun _ => 0)

/-- Sequential evaluation on the raw request string. -/
noncomputable def Model.process_query_seq (m : Model) (request : String) :
    QueryResult :=
  process_query_seq_terms m (splitWhitespace request)

/-- The document's term-frequency table contains the term (key present,
`doc.tf.get(term).is_some()`). -/
def containsTerm (d : Document) (t : String) : Bool :=
  (lookupA d.tf t).isSome

/-- Number of indexed documents whose term-frequency table contains `t`. -/
def dfCount (m : Model) (t : String) : Nat :=
  m.tfi.countP (fun pd => containsTerm pd.2 t)

/-- Well-formedness of a document as a hash-map image: distinct keys. -/
def Document.WfDoc (d : Document) : Prop :=
  (d.tf.map Prod.fst).Nodup

/-- The representation and document-frequency invariant of a model: the
document index has distinct path keys (it images a `HashMap`), `num_docs`
equals the number of indexed documents, each document table has distinct
keys, and every stored document-frequency counter, read with default 0,
counts exactly the documents containing the term. -/
def Model.Wf (m : Model) : Prop :=
  (m.tfi.map Prod.fst).Nodup ∧
  m.num_docs = m.tfi.length ∧
  (∀ pd ∈ m.tfi, pd.2.WfDoc) ∧
  (∀ t, (m.idf t).getD 0 = dfCount m t)

/-- Per-document count consistency: the values of the term-frequency table
sum to `terms_count`. -/
def Document.CountOk (d : Document) : Prop :=
  (d.tf.map Prod.snd).sum = d.terms_count

/-- Count consistency for every indexed document of a model. -/
def Model.TfOk (m : Model) : Prop :=
  ∀ pd ∈ m.tfi, pd.2.CountOk

/-! Helper lemmas about association-list lookup. -/

theorem lookupA_eq_none {β : Type} (l : List (String × β)) (k : String) :
    lookupA l k = none ↔ k ∉ l.map Prod.fst := by
  induction l with
  | nil => simp [lookupA]
  | cons hd tl ih =>
    obtain ⟨k1, v⟩ := hd
    by_cases hk : k1 = k
    · subst hk
      simp [lookupA]
    · simp [lookupA, hk, ih, Ne.symm hk]

theorem lookupA_isSome {β : Type} (l : List (String × β)) (k : String) :
    (lookupA l k).isSome = true ↔ k ∈ l.map Prod.fst := by
  rw [Option.isSome_iff_ne_none]
  constructor
  · intro h
    by_contra hm
    exact h ((lookupA_eq_none l k).2 hm)
  · intro h hn
    exact (lookupA_eq_none l k).1 hn h

theorem lookupA_mem {β : Type} {l : List (String × β)} {k : String} {v : β}
    (h : lookupA l k = some v) : (k, v) ∈ l := by
  induction l with
  | nil => simp [lookupA] at h
  | cons hd tl ih =>
    obtain ⟨k1, w⟩ := hd
    by_cases hk : k1 = k
    · subst hk
      simp [lookupA] at h
      simp [h]
    · simp [lookupA, hk] at h
      exact List.mem_cons_of_mem _ (ih h)

theorem lookupA_map_self (l : List String) (g : String → Nat) (k : String) :
    lookupA (l.map (fun t => (t, g t))) k = if k ∈ l then some (g k) else none := by
  induction l with
  | nil => simp [lookupA]
  | cons hd tl ih =>
    by_cases hk : hd = k
    · subst hk
      simp [lookupA]
    · simp only [List.map_cons, lookupA, if_neg hk, ih, List.mem_cons]
      simp [Ne.symm hk]

theorem keys_map_pair (l : List String) (g : String → Nat) :
    (l.map (fun t => (t, g t))).map Prod.fst = l := by
  induction l with
  | nil => rfl
  | cons hd tl ih => simp [ih]

/-! Pointwise evaluation of the document-frequency update folds. -/

theorem foldl_bumpIdf_not_mem {l : List String} {t : String}
    (h : t ∉ l) (f : String → Option Nat) :
    (l.foldl bumpIdf f) t = f t := by
  induction l generalizing f with
  | nil => rfl
  | cons hd tl ih =>
    have hne : t ≠ hd := fun he => h (he ▸ List.mem_cons_self hd tl)
    have htl : t ∉ tl := fun ht => h (List.mem_cons_of_mem hd ht)
    simp only [List.foldl_cons, ih htl]
    simp [bumpIdf, hne]

theorem foldl_decrIdf_not_mem {l : List String} {t : String}
    (h : t ∉ l) (f : String → Option Nat) :
    (l.foldl decrIdf f) t = f t := by
  induction l generalizing f with
  | nil => rfl
  | cons hd tl ih =>
    have hne : t ≠ hd := fun he => h (he ▸ List.mem_cons_self hd tl)
    have htl : t ∉ tl := fun ht => h (List.mem_cons_of_mem hd ht)
    simp only [List.foldl_cons, ih htl]
    simp [decrIdf, hne]

theorem foldl_bumpIdf_apply (l : List String) (hl : l.Nodup)
    (f : String → Option Nat) (t : String) :
    (l.foldl bumpIdf f) t =
      if t ∈ l then some ((f t).getD 0 + 1) else f t := by
  induction l generalizing f with
  | nil => simp
  | cons hd tl ih =>
    obtain ⟨hhd, htl⟩ := List.nodup_cons.1 hl
    by_cases ht : t = hd
    · subst ht
      simp only [List.foldl_cons, foldl_bumpIdf_not_mem hhd, List.mem_cons, true_or,
        if_pos]
      simp [bumpIdf]
    · simp only [List.foldl_cons, ih htl, List.mem_cons]
      have hb : bumpIdf f hd t = f t := by simp [bumpIdf, ht]
      simp [hb, ht]

theorem foldl_decrIdf_apply (l : List String) (hl : l.Nodup)
    (f : String → Option Nat) (t : String) :
    (l.foldl decrIdf f) t =
      if t ∈ l then (f t).map (fun c => c - 1) else f t := by
  induction l generalizing f with
  | nil => simp
  | cons hd tl ih =>
    obtain ⟨hhd, htl⟩ := List.nodup_cons.1 hl
    by_cases ht : t = hd
    · subst ht
      simp only [List.foldl_cons, foldl_decrIdf_not_mem hhd, List.mem_cons, true_or,
        if_pos]
      simp [decrIdf]
    · simp only [List.foldl_cons, ih htl, List.mem_cons]
      have hb : decrIdf f hd t = f t := by simp [decrIdf, ht]
      simp [hb, ht]

/-! Helper lemmas about entry removal (`HashMap::remove`). -/

theorem filter_ne_eq_self {β : Type} {l : List (String × β)} {k : String}
    (h : k ∉ l.map Prod.fst) :
    l.filter (fun pd => pd.1 ≠ k) = l := by
  rw [List.filter_eq_self]
  intro pd hpd
  have : pd.1 ≠ k := fun he => h (he ▸ List.mem_map_of_mem Prod.fst hpd)
  simpa using this

theorem perm_cons_filter {β : Type} {l : List (String × β)} {k : String} {v : β}
    (hn : (l.map Prod.fst).Nodup) (h : lookupA l k = some v) :
    l.Perm ((k, v) :: l.filter (fun pd => pd.1 ≠ k)) := by
  induction l with
  | nil => simp [lookupA] at h
  | cons hd tl ih =>
    obtain ⟨k1, w⟩ := hd
    rw [List.map_cons] at hn
    obtain ⟨hk1, htl⟩ := List.nodup_cons.1 hn
    by_cases hk : k1 = k
    · subst hk
      have hv : w = v := by simpa [lookupA] using h
      subst hv
      rw [List.filter_cons_of_neg (by simp), filter_ne_eq_self hk1]
    · have h2 : lookupA tl k = some v := by simpa [lookupA, hk] using h
      have hperm := ih htl h2
      rw [List.filter_cons_of_pos (by simp [hk])]
      exact (hperm.cons (k1, w)).trans (List.Perm.swap _ _ _)

/-! Facts about `remove_doc` and the document-frequency count. -/

theorem remove_doc_of_none {m : Model} {p : String} (h : lookupA m.tfi p = none) :
    m.remove_doc p = m := by
  simp [Model.remove_doc, h]

theorem remove_doc_not_mem (m : Model) (p : String) :
    p ∉ ((m.remove_doc p).tfi.map Prod.fst) := by
  cases h : lookupA m.tfi p with
  | none =>
    rw [remove_doc_of_none h]
    exact (lookupA_eq_none _ _).1 h
  | some doc =>
    have ht : (m.remove_doc p).tfi = m.tfi.filter (fun pd => pd.1 ≠ p) := by
      simp [Model.remove_doc, h]
    rw [ht]
    intro hmem
    obtain ⟨pd, hpd, hfst⟩ := List.mem_map.1 hmem
    have hne := List.of_mem_filter hpd
    simp only [decide_eq_true_eq] at hne
    exact hne hfst

theorem containsTerm_true {d : Document} {t : String}
    (h : t ∈ d.tf.map Prod.fst) : containsTerm d t = true :=
  (lookupA_isSome d.tf t).2 h

theorem containsTerm_false {d : Document} {t : String}
    (h : t ∉ d.tf.map Prod.fst) : containsTerm d t = false := by
  have := (lookupA_eq_none d.tf t).2 h
  simp [containsTerm, this]

theorem getD_eq_some {o : Option Nat} {n : Nat} (h : o.getD 0 = n) (hn : 0 < n) :
    o = some n := by
  cases o with
  | none => simp at h; omega
  | some k => simp only [Option.getD_some] at h; rw [h]

theorem dfCount_remove {m : Model} {p : String} {doc : Document}
    (hn : (m.tfi.map Prod.fst).Nodup) (h : lookupA m.tfi p = some doc)
    (t : String) :
    dfCount m t =
      (if containsTerm doc t then 1 else 0) +
        (m.tfi.filter (fun pd => pd.1 ≠ p)).countP
          (fun pd => containsTerm pd.2 t) := by
  have hperm := perm_cons_filter hn h
  rw [dfCount, hperm.countP_eq (fun pd => containsTerm pd.2 t), List.countP_cons]
  by_cases hc : containsTerm doc t <;> simp [hc, Nat.add_comm]

/-! Preservation of the model invariant by the mutation operations. -/

theorem wf_new : Model.new.Wf := by
  refine ⟨by simp [Model.new], rfl, ?_, ?_⟩
  · intro pd hpd
    simp [Model.new] at hpd
  · intro t
    rfl

theorem containsTerm_built (n lm : Nat) (terms : List String) (t : String) :
    containsTerm ⟨n, lm, terms.dedup.map (fun s => (s, terms.count s))⟩ t
      = decide (t ∈ terms.dedup) := by
  simp only [containsTerm, lookupA_map_self]
  by_cases hm : t ∈ terms.dedup <;> simp [hm]

theorem wf_remove_doc {m : Model} (hw : m.Wf) (p : String) :
    (m.remove_doc p).Wf := by
  obtain ⟨hnd, hnum, hdocs, hdf⟩ := hw
  cases h : lookupA m.tfi p with
  | none =>
    rw [remove_doc_of_none h]
    exact ⟨hnd, hnum, hdocs, hdf⟩
  | some doc =>
    have hdocwf : Document.WfDoc doc := hdocs (p, doc) (lookupA_mem h)
    have hperm := perm_cons_filter hnd h
    refine ⟨?_, ?_, ?_, ?_⟩ <;> simp only [Model.remove_doc, h]
    · exact ((List.filter_sublist _).map Prod.fst).nodup hnd
    · have hlen := hperm.length_eq
      simp only [List.length_cons] at hlen
      rw [hnum, hlen]
      omega
    · intro pd hpd
      exact hdocs pd (List.mem_of_mem_filter hpd)
    · intro t
      simp only [dfCount]
      rw [foldl_decrIdf_apply _ hdocwf]
      have hcount := dfCount_remove hnd h t
      by_cases ht : t ∈ doc.tf.map Prod.fst
      · rw [containsTerm_true ht, if_pos rfl] at hcount
        rw [if_pos ht]
        have hpos : 0 < dfCount m t := by omega
        have hsome := getD_eq_some (hdf t) hpos
        rw [hsome]
        simp only [Option.map_some', Option.getD_some]
        omega
      · rw [containsTerm_false ht] at hcount
        simp only [Bool.false_eq_true, if_false, Nat.zero_add] at hcount
        rw [if_neg ht, hdf t]
        omega

theorem wf_add_doc {m : Model} (hw : m.Wf) (p : String) (content : List String)
    (lm : Nat) : (m.add_doc p content lm).Wf := by
  have hw1 := wf_remove_doc hw p
  have hp1 := remove_doc_not_mem m p
  obtain ⟨hnd, hnum, hdocs, hdf⟩ := hw1
  refine ⟨?_, ?_, ?_, ?_⟩ <;> simp only [Model.add_doc]
  · simp only [List.map_cons]
    exact List.nodup_cons.2 ⟨hp1, hnd⟩
  · simp [hnum]
  · intro pd hpd
    rcases List.mem_cons.1 hpd with hhd | htl
    · subst hhd
      show ((((content.map clean_term).dedup.map
        (fun t => (t, (content.map clean_term).count t))).map Prod.fst)).Nodup
      rw [keys_map_pair]
      exact List.nodup_dedup _
    · exact hdocs pd htl
  · intro t
    simp only [dfCount, List.countP_cons]
    rw [foldl_bumpIdf_apply _ (List.nodup_dedup _), containsTerm_built]
    by_cases hm2 : t ∈ (content.map clean_term).dedup
    · rw [if_pos hm2]
      simp only [hm2, Option.getD_some]
      rw [hdf t]
      simp [dfCount, hm2]
    · rw [if_neg hm2]
      rw [hdf t]
      simp [dfCount, hm2]

/-! Field equations for the mutation operations, used to compute with the
round-trip and idempotence claims. -/

theorem lookupA_cons_self {β : Type} (k : String) (v : β)
    (l : List (String × β)) : lookupA ((k, v) :: l) k = some v := by
  simp [lookupA]

theorem add_doc_tfi (m : Model) (p : String) (content : List String)
    (lm : Nat) :
    (m.add_doc p content lm).tfi = (p, builtDoc content lm) :: (m.remove_doc p).tfi :=
  rfl

theorem add_doc_num (m : Model) (p : String) (content : List String)
    (lm : Nat) :
    (m.add_doc p content lm).num_docs = (m.remove_doc p).num_docs + 1 :=
  rfl

theorem add_doc_idf_apply (m : Model) (p : String) (content : List String)
    (lm : Nat) (t : String) :
    (m.add_doc p content lm).idf t =
      if t ∈ (content.map clean_term).dedup
      then some (((m.remove_doc p).idf t).getD 0 + 1)
      else (m.remove_doc p).idf t := by
  simp only [Model.add_doc]
  rw [foldl_bumpIdf_apply _ (List.nodup_dedup _)]

theorem remove_doc_num {m : Model} {p : String} {doc : Document}
    (h : lookupA m.tfi p = some doc) :
    (m.remove_doc p).num_docs = m.num_docs - 1 := by
  simp [Model.remove_doc, h]

theorem remove_doc_idf_apply {m : Model} {p : String} {doc : Document}
    (h : lookupA m.tfi p = some doc) (hdoc : doc.WfDoc) (t : String) :
    (m.remove_doc p).idf t =
      if t ∈ doc.tf.map Prod.fst then (m.idf t).map (fun c => c - 1)
      else m.idf t := by
  simp only [Model.remove_doc, h]
  rw [foldl_decrIdf_apply _ hdoc]

theorem builtDoc_keys (content : List String) (lm : Nat) :
    (builtDoc content lm).tf.map Prod.fst = (content.map clean_term).dedup :=
  keys_map_pair _ _

theorem builtDoc_wf (content : List String) (lm : Nat) :
    (builtDoc content lm).WfDoc := by
  unfold Document.WfDoc
  rw [builtDoc_keys]
  exact List.nodup_dedup _

theorem get_idf_congr {m1 m2 : Model} (t : String)
    (hn : m1.num_docs = m2.num_docs)
    (hg : (m1.idf t).getD 0 = (m2.idf t).getD 0) :
    m1.get_idf t = m2.get_idf t := by
  cases h1 : m1.idf t with
  | none =>
    cases h2 : m2.idf t with
    | none => simp [Model.get_idf, h1, h2]
    | some k =>
      rw [h1, h2] at hg
      simp only [Option.getD_none, Option.getD_some] at hg
      simp [Model.get_idf, h1, h2, ← hg]
  | some k =>
    cases h2 : m2.idf t with
    | none =>
      rw [h1, h2] at hg
      simp only [Option.getD_none, Option.getD_some] at hg
      simp [Model.get_idf, h1, h2, hg]
    | some k2 =>
      rw [h1, h2] at hg
      simp only [Option.getD_some] at hg
      subst hg
      simp [Model.get_idf, h1, h2, hn]

theorem get_idf_of_getD_zero {m : Model} {t : String}
    (h : (m.idf t).getD 0 = 0) : m.get_idf t = 0 := by
  cases ho : m.idf t with
  | none => simp [Model.get_idf, ho]
  | some k =>
    rw [ho] at h
    simp only [Option.getD_some] at h
    simp [Model.get_idf, ho, h]

/-! Count-consistency (terms_count) lemmas. -/

theorem countOk_builtDoc (content : List String) (lm : Nat) :
    (builtDoc content lm).CountOk := by
  unfold Document.CountOk builtDoc
  simp only [List.map_map]
  show ((content.map clean_term).dedup.map
      (fun s => (content.map clean_term).count s)).sum = _
  rw [List.sum_map_count_dedup_eq_length]

theorem tfOk_new : Model.new.TfOk := by
  intro pd hpd
  simp [Model.new] at hpd

theorem tfOk_remove_doc {m : Model} (h : m.TfOk) (p : String) :
    (m.remove_doc p).TfOk := by
  intro pd hpd
  cases hl : lookupA m.tfi p with
  | none =>
    rw [remove_doc_of_none hl] at hpd
    exact h pd hpd
  | some doc =>
    have ht : (m.remove_doc p).tfi = m.tfi.filter (fun pd => pd.1 ≠ p) := by
      simp [Model.remove_doc, hl]
    rw [ht] at hpd
    exact h pd (List.mem_of_mem_filter hpd)

theorem tfOk_add_doc {m : Model} (h : m.TfOk) (p : String)
    (content : List String) (lm : Nat) : (m.add_doc p content lm).TfOk := by
  intro pd hpd
  rw [add_doc_tfi] at hpd
  rcases List.mem_cons.1 hpd with hhd | htl
  · subst hhd
    exact countOk_builtDoc content lm
  · exact tfOk_remove_doc h p pd htl

/-! The claims. -/

/-- C2: the document-frequency invariant — for every term `t`, the stored
`document_frequency` count (read with default 0) equals the number of
currently indexed documents whose term-frequency table contains `t` — holds
of the fresh model and is preserved by `add_doc` and `remove_doc` (and hence
by directory walks and load-time reconciliation, which mutate only through
these two operations); a counter that has dropped to 0 may remain stored but
is treated as 0 when queried: `get_idf` returns 0 for it. -/
theorem claim2_df_invariant_preserved :
    Model.new.Wf ∧
    (∀ (m : Model) (p : String) (content : List String) (lm : Nat),
        m.Wf → (m.add_doc p content lm).Wf) ∧
    (∀ (m : Model) (p : String), m.Wf → (m.remove_doc p).Wf) ∧
    (∀ (m : Model) (t : String), m.Wf → (m.idf t).getD 0 = dfCount m t) ∧
    (∀ (m : Model) (t : String), (m.idf t).getD 0 = 0 → m.get_idf t = 0) :=
  ⟨wf_new,
   fun _ p content lm hw => wf_add_doc hw p content lm,
   fun _ p hw => wf_remove_doc hw p,
   fun _ t hw => hw.2.2.2 t,
   fun _ _ h => get_idf_of_getD_zero h⟩

/-- Witness for C2 at concrete inputs: the fresh model is well-formed and so
is the model after indexing one concrete document. -/
theorem claim2_witness :
    Model.new.Wf ∧ (Model.new.add_doc "p" ["a", "b", "a"] 7).Wf :=
  ⟨claim2_df_invariant_preserved.1,
   claim2_df_invariant_preserved.2.1 Model.new "p" ["a", "b", "a"] 7
     claim2_df_invariant_preserved.1⟩

/-- C7: for every document built by `add_doc` the values of its
term-frequency table sum to its `terms_count`, and this per-document
consistency is preserved by every operation (fresh model, `add_doc`,
`remove_doc`). -/
theorem claim7_terms_count_consistent :
    Model.new.TfOk ∧
    (∀ (m : Model) (p : String) (content : List String) (lm : Nat),
        m.TfOk → (m.add_doc p content lm).TfOk) ∧
    (∀ (m : Model) (p : String), m.TfOk → (m.remove_doc p).TfOk) ∧
    (∀ (m : Model) (p : String) (content : List String) (lm : Nat)
        (doc : Document),
        lookupA (m.add_doc p content lm).tfi p = some doc → doc.CountOk) := by
  refine ⟨tfOk_new,
    fun _ p content lm h => tfOk_add_doc h p content lm,
    fun _ p h => tfOk_remove_doc h p, ?_⟩
  intro m p content lm doc hdoc
  rw [add_doc_tfi, lookupA_cons_self] at hdoc
  cases hdoc
  exact countOk_builtDoc content lm

/-- Witness for C7 at a concrete input: the table built from the token list
`["a", "b", "a"]` sums to 3. -/
theorem claim7_witness :
    (Model.new.add_doc "p" ["a", "b", "a"] 0).TfOk ∧
    (Document.CountOk ⟨3, 0, [("B", 1), ("A", 2)]⟩) :=
  ⟨claim7_terms_count_consistent.2.1 Model.new "p" ["a", "b", "a"] 0
     claim7_terms_count_consistent.1,
   claim7_terms_count_consistent.2.2.2 Model.new "p" ["a", "b", "a"] 0
     ⟨3, 0, [("B", 1), ("A", 2)]⟩ (by decide)⟩

/-- C10: on a well-formed model, every distinct term of a document about to
be removed is present in the document-frequency map with a stored counter of
at least 1, so the unsigned decrement `*count -= 1` of `remove_doc` never
underflows. -/
theorem claim10_decrement_safe (m : Model) (p : String) (doc : Document)
    (t : String) (hw : m.Wf) (hd : lookupA m.tfi p = some doc)
    (ht : t ∈ doc.tf.map Prod.fst) :
    ∃ k, m.idf t = some k ∧ 1 ≤ k := by
  obtain ⟨hnd, hnum, hdocs, hdf⟩ := hw
  have hmem : (p, doc) ∈ m.tfi := lookupA_mem hd
  have hpos : 0 < dfCount m t := by
    rw [dfCount]
    exact List.countP_pos_iff.2 ⟨(p, doc), hmem, containsTerm_true ht⟩
  exact ⟨dfCount m t, getD_eq_some (hdf t) hpos, hpos⟩

/-- Witness for C10 at a concrete input. -/
theorem claim10_witness :
    ∃ k, (Model.new.add_doc "p" ["a", "b"] 0).idf "A" = some k ∧ 1 ≤ k :=
  claim10_decrement_safe (Model.new.add_doc "p" ["a", "b"] 0) "p"
    ⟨2, 0, [("A", 1), ("B", 1)]⟩ "A"
    (wf_add_doc wf_new "p" ["a", "b"] 0) (by decide) (by decide)

/-- C4 counterexample: the round trip does not restore the
document-frequency map exactly.  On the empty model, indexing the one-token
document `["a"]` at path `"p"` and removing it again leaves the entry
`"A" ↦ some 0` in the map, whereas before the add the key `"A"` was absent —
so the map is not exactly its pre-add value (while `num_docs` is). -/
theorem claim4_counterexample :
    lookupA Model.new.tfi "p" = none ∧
    ((Model.new.add_doc "p" ["a"] 0).remove_doc "p").idf "A" = some 0 ∧
    Model.new.idf "A" = none ∧
    ((Model.new.add_doc "p" ["a"] 0).remove_doc "p").idf ≠ Model.new.idf := by
  refine ⟨rfl, by decide, rfl, ?_⟩
  intro hcontra
  have h1 : ((Model.new.add_doc "p" ["a"] 0).remove_doc "p").idf "A" = some 0 := by
    decide
  rw [hcontra] at h1
  exact absurd h1 (by decide)

/-- C4 amended: for a path not currently indexed, `add_doc` followed by
`remove_doc` restores `doc_count` exactly, and restores the
document-frequency map up to the representation of zero: every stored
counter read with default 0 is restored (a term absent before the add may
remain with an explicit counter of 0), and every `get_idf` query result is
restored. -/
theorem claim4_roundtrip_restores (m : Model) (p : String)
    (content : List String) (lm : Nat) (h : lookupA m.tfi p = none) :
    ((m.add_doc p content lm).remove_doc p).num_docs = m.num_docs ∧
    (∀ t, (((m.add_doc p content lm).remove_doc p).idf t).getD 0
        = (m.idf t).getD 0) ∧
    (∀ t, ((m.add_doc p content lm).remove_doc p).get_idf t = m.get_idf t) := by
  have hR : m.remove_doc p = m := remove_doc_of_none h
  have hL1 : lookupA (m.add_doc p content lm).tfi p = some (builtDoc content lm) := by
    rw [add_doc_tfi]
    exact lookupA_cons_self _ _ _
  have hnum : ((m.add_doc p content lm).remove_doc p).num_docs = m.num_docs := by
    rw [remove_doc_num hL1, add_doc_num, hR]
    omega
  have hgd : ∀ t, (((m.add_doc p content lm).remove_doc p).idf t).getD 0
      = (m.idf t).getD 0 := by
    intro t
    rw [remove_doc_idf_apply hL1 (builtDoc_wf content lm), builtDoc_keys,
      add_doc_idf_apply, hR]
    by_cases hm2 : t ∈ (content.map clean_term).dedup
    · simp [hm2]
    · simp [hm2]
  exact ⟨hnum, hgd, fun t => get_idf_congr t hnum (hgd t)⟩

/-- Witness for C4 (amended) at a concrete input. -/
theorem claim4_witness :
    lookupA Model.new.tfi "q" = none ∧
    ((Model.new.add_doc "q" ["x", "y"] 3).remove_doc "q").num_docs
      = Model.new.num_docs ∧
    (((Model.new.add_doc "q" ["x", "y"] 3).remove_doc "q").idf "X").getD 0
      = (Model.new.idf "X").getD 0 :=
  ⟨rfl,
   (claim4_roundtrip_restores Model.new "q" ["x", "y"] 3 rfl).1,
   (claim4_roundtrip_restores Model.new "q" ["x", "y"] 3 rfl).2.1 "X"⟩

/-- C6: re-indexing is idempotent — adding the same path with the same token
content twice (timestamps arbitrary) leaves the document-frequency map
(exactly, as stored) and `doc_count` identical to a single add. -/
theorem claim6_reindex_idempotent (m : Model) (p : String)
    (content : List String) (lm lm2 : Nat) :
    ((m.add_doc p content lm).add_doc p content lm2).idf
        = (m.add_doc p content lm).idf ∧
    ((m.add_doc p content lm).add_doc p content lm2).num_docs
        = (m.add_doc p content lm).num_docs := by
  have hL1 : lookupA (m.add_doc p content lm).tfi p = some (builtDoc content lm) := by
    rw [add_doc_tfi]
    exact lookupA_cons_self _ _ _
  constructor
  · funext t
    rw [add_doc_idf_apply,
      remove_doc_idf_apply hL1 (builtDoc_wf content lm), builtDoc_keys,
      add_doc_idf_apply]
    by_cases hm2 : t ∈ (content.map clean_term).dedup
    · simp [hm2]
    · simp [hm2]
  · rw [add_doc_num (m.add_doc p content lm), remove_doc_num hL1,
      add_doc_num m]
    omega

/-! Arithmetic of the balanced-chunk dispatch. -/

theorem chunkStart_zero (base r : Nat) : chunkStart base r 0 = 0 := by
  simp [chunkStart]

theorem chunkStart_succ (base r i : Nat) :
    chunkStart base r (i + 1) = chunkStart base r i + chunkCharge base r i := by
  unfold chunkStart chunkCharge
  by_cases h : i < r
  · rw [min_eq_left (by omega : i + 1 ≤ r), min_eq_left (by omega : i ≤ r),
      if_neg (by omega : ¬ r < i + 1), if_neg (by omega : ¬ r < i), if_pos h]
    ring
  · rw [min_eq_right (by omega : r ≤ i + 1), min_eq_right (by omega : r ≤ i),
      if_pos (by omega : r < i + 1), if_neg h]
    by_cases h2 : r < i
    · rw [if_pos h2, show i + 1 - r = (i - r) + 1 from by omega]
      ring
    · rw [if_neg h2, show i + 1 - r = 1 from by omega]
      ring

theorem chunkStart_total {tc tasks : Nat} (h1 : 1 ≤ tc) (h2 : tc ≤ tasks) :
    chunkStart (tasks / tc) (tasks % tc) tc = tasks := by
  have hr : tasks % tc < tc := Nat.mod_lt _ h1
  have hd := Nat.div_add_mod tasks tc
  unfold chunkStart
  rw [min_eq_right (by omega : tasks % tc ≤ tc), if_pos hr]
  calc tasks % tc * (tasks / tc + 1) + (tc - tasks % tc) * (tasks / tc)
      = (tasks % tc + (tc - tasks % tc)) * (tasks / tc) + tasks % tc := by ring
    _ = tc * (tasks / tc) + tasks % tc := by
        rw [show tasks % tc + (tc - tasks % tc) = tc from by omega]
    _ = tasks := hd

theorem chunkCharge_pos {tc tasks : Nat} (h1 : 1 ≤ tc) (h2 : tc ≤ tasks)
    (i : Nat) : 1 ≤ chunkCharge (tasks / tc) (tasks % tc) i := by
  have hb : 1 ≤ tasks / tc := (Nat.one_le_div_iff h1).2 h2
  unfold chunkCharge
  by_cases hi : i < tasks % tc
  · rw [if_pos hi]; omega
  · rw [if_neg hi]; omega

theorem chunks_range_flatten (base r n : Nat) :
    ((List.range n).map
        (fun i => List.range' (chunkStart base r i) (chunkCharge base r i))).flatten
      = List.range' 0 (chunkStart base r n) := by
  induction n with
  | zero => simp [chunkStart_zero]
  | succ n ih =>
    rw [List.range_succ, List.map_append, List.flatten_append, ih]
    simp only [List.map_cons, List.map_nil, List.flatten_cons, List.flatten_nil,
      List.append_nil]
    rw [chunkStart_succ]
    have hap := List.range'_append_1 0 (chunkStart base r n) (chunkCharge base r n)
    simp only [Nat.zero_add] at hap
    rw [hap, Nat.add_comm]

theorem chunks_slices_flatten {α : Type} (base r : Nat) (l : List α) (n : Nat) :
    ((List.range n).map
        (fun i => (l.drop (chunkStart base r i)).take (chunkCharge base r i))).flatten
      = l.take (chunkStart base r n) := by
  induction n with
  | zero => simp [chunkStart_zero]
  | succ n ih =>
    rw [List.range_succ, List.map_append, List.flatten_append, ih]
    simp only [List.map_cons, List.map_nil, List.flatten_cons, List.flatten_nil,
      List.append_nil]
    rw [chunkStart_succ, List.take_add]

theorem dispatch_tasks_eq (w tasks : Nat) (h : 1 ≤ tasks) :
    dispatch_tasks w tasks =
      some ((List.range (min (max w 1) tasks)).map (fun i =>
        (chunkStart (tasks / min (max w 1) tasks)
            (tasks % min (max w 1) tasks) i,
         chunkCharge (tasks / min (max w 1) tasks)
            (tasks % min (max w 1) tasks) i))) := by
  have htc : ¬ min (max w 1) tasks = 0 := by omega
  simp only [dispatch_tasks, if_neg htc]
  rfl

theorem tc_bounds (w tasks : Nat) (h : 1 ≤ tasks) :
    1 ≤ min (max w 1) tasks ∧ min (max w 1) tasks ≤ tasks := by
  omega

/-- C3: for `tasks ≥ 1` and any requested worker count, `dispatch_tasks`
succeeds and produces exactly `clamp(worker_count, 1, tasks)` chunks, whose
start is the closed-form `chunkStart` and whose size is `base+1` for the
first `r = tasks % tc` chunks and `base = tasks / tc` for the rest; the
chunk index ranges are contiguous, non-overlapping and concatenate to
exactly `0..tasks-1`, and no chunk is empty. -/
theorem claim3_dispatch_law (w tasks : Nat) (h : 1 ≤ tasks) :
    dispatch_tasks w tasks =
      some ((List.range (min (max w 1) tasks)).map (fun i =>
        (chunkStart (tasks / min (max w 1) tasks)
            (tasks % min (max w 1) tasks) i,
         chunkCharge (tasks / min (max w 1) tasks)
            (tasks % min (max w 1) tasks) i))) ∧
    (∀ l, dispatch_tasks w tasks = some l →
      l.length = min (max w 1) tasks ∧
      (l.map (fun sc => List.range' sc.1 sc.2)).flatten = List.range tasks ∧
      (∀ sc ∈ l, 1 ≤ sc.2) ∧
      (∀ i, ∀ hi : i < l.length,
        (l.get ⟨i, hi⟩).2 =
          if i < tasks % min (max w 1) tasks
          then tasks / min (max w 1) tasks + 1
          else tasks / min (max w 1) tasks)) := by
  obtain ⟨htc1, htc2⟩ := tc_bounds w tasks h
  refine ⟨dispatch_tasks_eq w tasks h, ?_⟩
  intro l hl
  rw [dispatch_tasks_eq w tasks h] at hl
  cases hl
  refine ⟨by simp, ?_, ?_, ?_⟩
  · rw [List.map_map]
    have : ((List.range (min (max w 1) tasks)).map
        ((fun sc : Nat × Nat => List.range' sc.1 sc.2) ∘ (fun i =>
          (chunkStart (tasks / min (max w 1) tasks)
              (tasks % min (max w 1) tasks) i,
           chunkCharge (tasks / min (max w 1) tasks)
              (tasks % min (max w 1) tasks) i)))) =
        ((List.range (min (max w 1) tasks)).map (fun i =>
          List.range' (chunkStart (tasks / min (max w 1) tasks)
              (tasks % min (max w 1) tasks) i)
            (chunkCharge (tasks / min (max w 1) tasks)
              (tasks % min (max w 1) tasks) i))) := rfl
    rw [this, chunks_range_flatten, chunkStart_total htc1 htc2,
      List.range_eq_range']
  · intro sc hsc
    obtain ⟨i, hi, hpair⟩ := List.mem_map.1 hsc
    rw [← hpair]
    exact chunkCharge_pos htc1 htc2 i
  · intro i hi
    simp only [List.get_eq_getElem, List.getElem_map, List.getElem_range]
    rfl

/-- Witness for C3 at a concrete input: eight terms over three requested
workers give chunks of sizes 3, 3, 2 with contiguous starts. -/
theorem claim3_witness :
    1 ≤ 8 ∧ dispatch_tasks 3 8 = some [(0, 3), (3, 3), (6, 2)] := by
  refine ⟨by decide, ?_⟩
  rw [(claim3_dispatch_law 3 8 (by decide)).1]
  decide

/-- C1 (code bug): on a query with no whitespace-separated terms the split
term list is empty, `dispatch_tasks` clamps its worker count to
`max(w,1).min(0) = 0` — contradicting its own comment that the count is kept
greater than 0 — and then evaluates `tasks / threads_count = 0 / 0`, an
integer division by zero, i.e. a panic: `process_query` aborts instead of
returning the empty `QueryResult`. -/
theorem claim1_empty_query_panics (m : Model) (w : Nat) :
    splitWhitespace "" = [] ∧
    dispatch_tasks w 0 = none ∧
    process_query m "" w = none := by
  refine ⟨rfl, ?_, ?_⟩
  · simp [dispatch_tasks]
  · show process_query_terms m [] w = none
    simp [process_query_terms, dispatch_tasks]

/-- C8: `get_idf` returns exactly 0 for a term absent from the
document-frequency map or stored with counter 0, and returns
`log10(num_docs / k)` for a stored counter `k > 0`; under the invariant a
term contained in `k > 0` of the `n` indexed documents yields `log10(n/k)`.
The zero result is an ordinary value, not an error. -/
theorem claim8_idf_formula (m : Model) (t : String) :
    (m.idf t = none → m.get_idf t = 0) ∧
    (m.idf t = some 0 → m.get_idf t = 0) ∧
    (∀ k, m.idf t = some k → 0 < k →
      m.get_idf t = Real.logb 10 ((m.num_docs : ℝ) / (k : ℝ))) ∧
    (∀ k, m.Wf → dfCount m t = k → 0 < k →
      m.get_idf t = Real.logb 10 ((m.tfi.length : ℝ) / (k : ℝ))) := by
  refine ⟨?_, ?_, ?_, ?_⟩
  · intro h
    simp [Model.get_idf, h]
  · intro h
    simp [Model.get_idf, h]
  · intro k h hk
    simp [Model.get_idf, h, hk]
  · intro k hw hdfc hk
    obtain ⟨hnd, hnum, hdocs, hdf⟩ := hw
    have hsome : m.idf t = some k := getD_eq_some (by rw [hdf t, hdfc]) hk
    simp [Model.get_idf, hsome, hk, hnum]

/-- Witness for C8 at a concrete input: three indexed documents with `"gl"`
in exactly two of them give `idf = log10(3/2)`. -/
theorem claim8_witness :
    (((Model.new.add_doc "a" ["gl", "x"] 0).add_doc "b" ["gl"] 0).add_doc
        "c" ["y"] 0).idf "GL" = some 2 ∧
    (((Model.new.add_doc "a" ["gl", "x"] 0).add_doc "b" ["gl"] 0).add_doc
        "c" ["y"] 0).get_idf "GL" = Real.logb 10 ((3 : ℝ) / (2 : ℝ)) := by
  refine ⟨by decide, ?_⟩
  have h2 := (claim8_idf_formula
    (((Model.new.add_doc "a" ["gl", "x"] 0).add_doc "b" ["gl"] 0).add_doc
      "c" ["y"] 0) "GL").2.2.1 2 (by decide) (by decide)
  have hn : (((Model.new.add_doc "a" ["gl", "x"] 0).add_doc "b" ["gl"] 0).add_doc
      "c" ["y"] 0).num_docs = 3 := by decide
  rw [hn] at h2
  simpa using h2

/-- C9: `get_tf_doc` is total and never divides by zero — it returns
`count / terms_count` only under the guard `terms_count > 0`, and returns 0
without dividing for a missing document, for a document with
`terms_count = 0`, and for a term absent from the document's table. -/
theorem claim9_tf_total (m : Model) (p t : String) :
    (lookupA m.tfi p = none → m.get_tf_doc p t = 0) ∧
    (∀ doc, lookupA m.tfi p = some doc → doc.terms_count = 0 →
      m.get_tf_doc p t = 0) ∧
    (∀ doc, lookupA m.tfi p = some doc → 0 < doc.terms_count →
      lookupA doc.tf t = none → m.get_tf_doc p t = 0) ∧
    (∀ doc v, lookupA m.tfi p = some doc → 0 < doc.terms_count →
      lookupA doc.tf t = some v →
      m.get_tf_doc p t = (v : ℝ) / (doc.terms_count : ℝ)) := by
  refine ⟨?_, ?_, ?_, ?_⟩
  · intro h
    simp [Model.get_tf_doc, h]
  · intro doc h h0
    simp [Model.get_tf_doc, h, h0]
  · intro doc h hpos hnone
    simp [Model.get_tf_doc, h, hpos, hnone]
  · intro doc v h hpos hsome
    simp [Model.get_tf_doc, h, hpos, hsome]

/-- Witness for C9 at a concrete input: a document indexed from zero tokens
has `terms_count = 0` and `tf` exactly 0 for any term, with no division. -/
theorem claim9_witness :
    lookupA (Model.new.add_doc "p" ([] : List String) 0).tfi "p"
      = some ⟨0, 0, []⟩ ∧
    (Model.new.add_doc "p" ([] : List String) 0).get_tf_doc "p" "A" = 0 :=
  ⟨by decide,
   (claim9_tf_total (Model.new.add_doc "p" ([] : List String) 0) "p" "A").2.1
     ⟨0, 0, []⟩ (by decide) rfl⟩

/-! Pointwise evaluation of query folds, for the order-independence claim. -/

theorem foldl_combine_apply (m : Model) (ts : List String) (init : QueryResult)
    (p : String) :
    (ts.foldl (fun results term =>
        combine_results results (m.process_query_term term)) init) p
      = init p + (ts.map (fun t => m.process_query_term t p)).sum := by
  induction ts generalizing init with
  | nil => simp
  | cons hd tl ih =>
    rw [List.foldl_cons, ih]
    simp [combine_results, add_assoc]

theorem foldl_combine_list_apply (rs : List QueryResult) (init : QueryResult)
    (p : String) :
    (rs.foldl combine_results init) p = init p + (rs.map (fun r => r p)).sum := by
  induction rs generalizing init with
  | nil => simp
  | cons hd tl ih =>
    rw [List.foldl_cons, ih]
    simp [combine_results, add_assoc]

theorem sum_chunks_eq {α : Type} (g : α → ℝ) (base r : Nat) (l : List α)
    (n : Nat) :
    ((List.range n).map (fun i =>
        (((l.drop (chunkStart base r i)).take (chunkCharge base r i)).map g).sum)).sum
      = ((l.take (chunkStart base r n)).map g).sum := by
  induction n with
  | zero => simp [chunkStart_zero]
  | succ n ih =>
    rw [List.range_succ, List.map_append, List.sum_append, ih]
    simp only [List.map_cons, List.map_nil, List.sum_cons, List.sum_nil, add_zero]
    rw [chunkStart_succ, List.take_add, List.map_append, List.sum_append]

/-- The threaded evaluation of a non-empty term list computes, for every
document, the sum of the per-term contributions over the whole term list. -/
theorem process_query_terms_eval (m : Model) (request : List String)
    (w : Nat) (h1 : 1 ≤ request.length) :
    process_query_terms m request w =
      some (fun p => (request.map (fun t => m.process_query_term t p)).sum) := by
  obtain ⟨htc1, htc2⟩ := tc_bounds w request.length h1
  simp only [process_query_terms]
  rw [dispatch_tasks_eq w request.length h1]
  show some _ = some _
  congr 1
  funext p
  rw [foldl_combine_list_apply, List.map_reverse, List.sum_reverse,
    List.map_map, List.map_map]
  show (0 : ℝ) + _ = _
  rw [zero_add]
  rw [List.map_congr_left (g := fun i =>
      (((request.drop (chunkStart (request.length / min (max w 1) request.length)
            (request.length % min (max w 1) request.length) i)).take
          (chunkCharge (request.length / min (max w 1) request.length)
            (request.length % min (max w 1) request.length) i)).map
        (fun t => m.process_query_term t p)).sum)
    (fun i _ => by
      show (((request.drop _).take _).foldl (fun results term =>
          combine_results results (m.process_query_term term)) (fun _ => 0)) p = _
      rw [foldl_combine_apply]
      show (0 : ℝ) + _ = _
      rw [zero_add])]
  rw [sum_chunks_eq, chunkStart_total htc1 htc2, List.take_length]

/-- The sequential single-pass evaluation computes the same per-document sum
of per-term contributions. -/
theorem process_query_seq_terms_eval (m : Model) (request : List String)
    (p : String) :
    process_query_seq_terms m request p
      = (request.map (fun t => m.process_query_term t p)).sum := by
  unfold process_query_seq_terms
  rw [foldl_combine_apply]
  show (0 : ℝ) + _ = _
  rw [zero_add]

/-- C5: for a non-empty query, the scores do not depend on the order of the
query terms or on the worker count and partitioning: the threaded evaluation
of any permutation of the term list, at any worker count, yields exactly the
result of the sequential single-pass evaluation of the original list (the
real-valued model makes the additive merge exactly commutative and
associative, so the equality is exact — a fortiori within any floating-point
tolerance); `combine_results` is commutative and associative. -/
theorem claim5_order_independent (m : Model) (terms terms2 : List String)
    (w : Nat) (hp : terms2.Perm terms) (hne : terms ≠ []) :
    process_query_terms m terms2 w = some (process_query_seq_terms m terms) ∧
    (∀ a b : QueryResult, combine_results a b = combine_results b a) ∧
    (∀ a b c : QueryResult,
      combine_results (combine_results a b) c
        = combine_results a (combine_results b c)) := by
  refine ⟨?_, ?_, ?_⟩
  · have hlen2 : 1 ≤ terms2.length := by
      rw [hp.length_eq]
      cases terms with
      | nil => exact absurd rfl hne
      | cons hd tl => simp
    rw [process_query_terms_eval m terms2 w hlen2]
    congr 1
    funext p
    rw [process_query_seq_terms_eval]
    exact (hp.map (fun t => m.process_query_term t p)).sum_eq
  · intro a b
    funext d
    simp [combine_results, add_comm]
  · intro a b c
    funext d
    simp [combine_results, add_assoc]

/-- Witness for C5 at a concrete input: the hypotheses hold for the permuted
two-term query `["beta", "alpha"]` against `["alpha", "beta"]`. -/
theorem claim5_witness :
    process_query_terms Model.new ["beta", "alpha"] 2
      = some (process_query_seq_terms Model.new ["alpha", "beta"]) ∧
    (∀ a b : QueryResult, combine_results a b = combine_results b a) :=
  ⟨(claim5_order_independent Model.new ["alpha", "beta"] ["beta", "alpha"] 2
      (by decide) (by decide)).1,
   (claim5_order_independent Model.new ["alpha", "beta"] ["beta", "alpha"] 2
      (by decide) (by decide)).2.1⟩

end Doogle
